import Mathlib

/-!
Verification development for the ideallibrary core: the Unicode-aware
String engine (modelled from the specification, since only its test suite
ships in the sources at hand), and the SafePointer / ScopedPointer smart
pointers (embedded directly from safe_pointer.h and scoped_pointer.h).

Strings are modelled at the level the specification describes: an encoded
byte buffer (a list of byte values) in which every codepoint occupies 1-4
bytes, with all public operations expressed in codepoint units and
implemented by scanning lead bytes of the buffer.  Codepoints and bytes
are both represented as natural numbers.
-/

namespace IdealCore

/-- Modelled from the spec: the String implementation (string.cpp) is not
among the sources, only its tests.  UTF-8 encoding of a single Unicode
scalar value into its 1-4 byte sequence, per the encoding's lead-byte
prefix rules (spec section 4.1). -/
def encodeChar (c : Nat) : List Nat :=
  if c < 0x80 then [c]
  else if c < 0x800 then [0xC0 + c / 0x40, 0x80 + c % 0x40]
  else if c < 0x10000 then
    [0xE0 + c / 0x1000, 0x80 + (c / 0x40) % 0x40, 0x80 + c % 0x40]
  else
    [0xF0 + c / 0x40000, 0x80 + (c / 0x1000) % 0x40,
     0x80 + (c / 0x40) % 0x40, 0x80 + c % 0x40]

/-- Modelled from the spec: the internal storage of a String is the
concatenation of the encodings of its codepoints (an always-valid encoded
byte buffer, spec section 3). -/
def encode (cps : List Nat) : List Nat :=
  (cps.map encodeChar).flatten

/-- Modelled from the spec: the byte width of an encoded unit, determined
by inspecting its lead byte under the encoding's lead-byte prefix rules
(spec section 4.1). -/
def cpWidth (b : Nat) : Nat :=
  if b < 0xC0 then 1
  else if b < 0xE0 then 2
  else if b < 0xF0 then 3
  else 4

/-- Modelled from the spec: the codepoint count of the buffer, obtained by
scanning lead bytes from the start and skipping each unit's width (spec
sections 3 and 4.1).  This is what the public size() reports. -/
def codepointCount : List Nat → Nat
  | [] => 0
  | b :: rest => 1 + codepointCount (rest.drop (cpWidth b - 1))
termination_by bs => bs.length
decreasing_by
  simp only [List.length_cons]
  have := List.length_drop (cpWidth b - 1) rest
  omega

/-- Modelled from the spec: byteOffsetForCodepoint (spec section 4.1) -
translate a codepoint index into a byte offset by scanning lead bytes.
An index at or beyond the codepoint count saturates to the buffer's byte
length (the valid one-past-the-end offset used for clipping). -/
def byteOffset : List Nat → Nat → Nat
  | _, 0 => 0
  | [], _ + 1 => 0
  | b :: rest, i + 1 =>
    cpWidth b + byteOffset (rest.drop (cpWidth b - 1)) i
termination_by bs _ => bs.length
decreasing_by
  simp only [List.length_cons]
  have := List.length_drop (cpWidth b - 1) rest
  omega

/-- Modelled from the spec: substr(start, length) (spec section 4.3) -
both arguments are codepoint counts; the codepoint range is translated to
byte offsets by lead-byte scanning and the corresponding bytes are taken
from the buffer, clipped to the actual codepoint count. -/
def substr (bs : List Nat) (start len : Nat) : List Nat :=
  (bs.take (byteOffset bs (start + len))).drop (byteOffset bs start)

theorem encodeChar_ne_nil (c : Nat) : encodeChar c ≠ [] := by
  unfold encodeChar
  split_ifs <;> simp

theorem encodeChar_head_width (c : Nat) :
    ∃ b t, encodeChar c = b :: t ∧ t.length = cpWidth b - 1 := by
  unfold encodeChar
  split_ifs with h1 h2 h3
  · refine ⟨c, [], rfl, ?_⟩
    simp only [List.length_nil, cpWidth]
    split_ifs <;> omega
  · refine ⟨0xC0 + c / 0x40, [0x80 + c % 0x40], rfl, ?_⟩
    simp only [List.length_cons, List.length_nil, cpWidth]
    split_ifs <;> omega
  · refine ⟨0xE0 + c / 0x1000,
      [0x80 + (c / 0x40) % 0x40, 0x80 + c % 0x40], rfl, ?_⟩
    simp only [List.length_cons, List.length_nil, cpWidth]
    split_ifs <;> omega
  · refine ⟨0xF0 + c / 0x40000,
      [0x80 + (c / 0x1000) % 0x40, 0x80 + (c / 0x40) % 0x40,
       0x80 + c % 0x40], rfl, ?_⟩
    simp only [List.length_cons, List.length_nil, cpWidth]
    split_ifs <;> omega

theorem encode_nil : encode [] = [] := rfl

theorem encode_cons (c : Nat) (cps : List Nat) :
    encode (c :: cps) = encodeChar c ++ encode cps := by
  simp [encode]

theorem encode_append (l₁ l₂ : List Nat) :
    encode (l₁ ++ l₂) = encode l₁ ++ encode l₂ := by
  simp [encode]

theorem codepointCount_encodeChar_append (c : Nat) (bs : List Nat) :
    codepointCount (encodeChar c ++ bs) = 1 + codepointCount bs := by
  obtain ⟨b, t, hbt, hlen⟩ := encodeChar_head_width c
  rw [hbt]
  show codepointCount (b :: (t ++ bs)) = 1 + codepointCount bs
  rw [codepointCount]
  congr 1
  rw [← hlen, List.drop_left]

theorem codepointCount_encode (cps : List Nat) :
    codepointCount (encode cps) = cps.length := by
  induction cps with
  | nil => simp [encode, codepointCount]
  | cons c rest ih =>
    rw [encode_cons, codepointCount_encodeChar_append, ih]
    simp [Nat.add_comm]

theorem byteOffset_encodeChar_append (c : Nat) (bs : List Nat) (i : Nat) :
    byteOffset (encodeChar c ++ bs) (i + 1) =
      (encodeChar c).length + byteOffset bs i := by
  obtain ⟨b, t, hbt, hlen⟩ := encodeChar_head_width c
  rw [hbt]
  show byteOffset (b :: (t ++ bs)) (i + 1) = (b :: t).length + byteOffset bs i
  rw [byteOffset]
  have h1 : (t ++ bs).drop (cpWidth b - 1) = bs := by
    rw [← hlen, List.drop_left]
  rw [h1]
  have hw : 1 ≤ cpWidth b := by unfold cpWidth; split_ifs <;> omega
  simp [List.length_cons]
  omega

theorem byteOffset_encode (cps : List Nat) (i : Nat) :
    byteOffset (encode cps) i = (encode (cps.take i)).length := by
  induction cps generalizing i with
  | nil =>
    cases i <;> simp [encode, byteOffset]
  | cons c rest ih =>
    cases i with
    | zero => simp [byteOffset, encode]
    | succ j =>
      rw [encode_cons, byteOffset_encodeChar_append, ih]
      rw [List.take_succ_cons, encode_cons]
      simp

/-- C1: for every String V and every codepoint start s and length n,
V.substr(s, n) returns the codepoint range [s, s+n) clipped to V's
codepoint count: the result is exactly the encoding of the codepoint
slice (so it never contains a partial multi-byte sequence, whatever
multi-byte codepoints precede, follow, or lie inside the range), it
contains exactly min(n, size(V)-s) codepoints, and it is empty when
s >= size(V). -/
theorem substr_codepoint_range (cps : List Nat) (s n : Nat) :
    substr (encode cps) s n = encode ((cps.take (s + n)).drop s) ∧
    codepointCount (substr (encode cps) s n) =
      min n (codepointCount (encode cps) - s) ∧
    (codepointCount (encode cps) ≤ s → substr (encode cps) s n = []) := by
  have hmain : substr (encode cps) s n = encode ((cps.take (s + n)).drop s) := by
    unfold substr
    rw [byteOffset_encode, byteOffset_encode]
    have hsplit : encode cps =
        encode (cps.take (s + n)) ++ encode (cps.drop (s + n)) := by
      rw [← encode_append, List.take_append_drop]
    rw [hsplit, List.take_left']
    · have hsplit2 : encode (cps.take (s + n)) =
          encode ((cps.take (s + n)).take s) ++
            encode ((cps.take (s + n)).drop s) := by
        rw [← encode_append, List.take_append_drop]
      rw [hsplit2]
      have hts : (cps.take (s + n)).take s = cps.take s := by
        rw [List.take_take]
        congr 1
        omega
      rw [hts, List.drop_left]
    · rfl
  refine ⟨hmain, ?_, ?_⟩
  · rw [hmain, codepointCount_encode, codepointCount_encode]
    simp only [List.length_drop, List.length_take]
    omega
  · intro hle
    rw [codepointCount_encode] at hle
    rw [hmain]
    have : (cps.take (s + n)).drop s = [] := by
      apply List.drop_eq_nil_of_le
      simp only [List.length_take]
      omega
    rw [this, encode_nil]

/-- Modelled from the spec: split(delimiterChar) (spec section 4.5) - the
String implementation is not among the sources.  Partitions the codepoint
sequence of the value on every occurrence of the single-codepoint
delimiter, producing the ordered maximal non-empty runs of non-delimiter
codepoints: a delimiter run acts as a single separator and no empty
fragment is ever produced (the "split and drop empty tokens" policy the
spec prescribes). -/
def split (d : Nat) : List Nat → List (List Nat)
  | [] => []
  | c :: rest =>
    if c = d then split d rest
    else (c :: rest.takeWhile (fun x => x != d)) ::
      split d (rest.dropWhile (fun x => x != d))
termination_by cps => cps.length
decreasing_by
  · simp
  · simp only [List.length_cons]
    have := (List.dropWhile_suffix (l := rest)
      (fun x => x != d)).sublist.length_le
    omega

theorem split_fragments_nonempty (d : Nat) (cps : List Nat) :
    ∀ f ∈ split d cps, f ≠ [] ∧ d ∉ f := by
  induction cps using split.induct d with
  | case1 => intro f hf; simp [split] at hf
  | case2 rest ih =>
    intro f hf
    rw [split, if_pos rfl] at hf
    exact ih f hf
  | case3 c rest hcd ih =>
    intro f hf
    rw [split, if_neg hcd] at hf
    rcases List.mem_cons.mp hf with h | h
    · subst h
      refine ⟨by simp, ?_⟩
      intro hmem
      rcases List.mem_cons.mp hmem with h | h
      · exact hcd h.symm
      · have hp := List.mem_takeWhile_imp h
        simp at hp
    · exact ih f h

theorem split_no_delimiter (d : Nat) (cps : List Nat)
    (hne : cps ≠ []) (hnd : d ∉ cps) : split d cps = [cps] := by
  cases cps with
  | nil => exact absurd rfl hne
  | cons c rest =>
    have hcd : c ≠ d := fun h => hnd (h ▸ List.mem_cons_self c rest)
    rw [split, if_neg hcd]
    have htw : rest.takeWhile (fun x => x != d) = rest := by
      rw [List.takeWhile_eq_self_iff]
      intro x hx
      simp only [bne_iff_ne, ne_eq, decide_eq_true_eq]
      exact fun h => hnd (h ▸ List.mem_cons_of_mem c hx)
    have hdw : rest.dropWhile (fun x => x != d) = [] := by
      rw [List.dropWhile_eq_nil_iff]
      intro x hx
      simp only [bne_iff_ne, ne_eq, decide_eq_true_eq]
      exact fun h => hnd (h ▸ List.mem_cons_of_mem c hx)
    rw [htw, hdw, split]

theorem split_flatten (d : Nat) (cps : List Nat) :
    (split d cps).flatten = cps.filter (fun x => x != d) := by
  induction cps using split.induct d with
  | case1 => simp [split]
  | case2 rest ih =>
    rw [split, if_pos rfl, ih]
    simp
  | case3 c rest hcd ih =>
    rw [split, if_neg hcd]
    simp only [List.flatten_cons, ih]
    have hsplit : rest = rest.takeWhile (fun x => x != d) ++
        rest.dropWhile (fun x => x != d) :=
      (List.takeWhile_append_dropWhile _ _).symm
    conv_rhs => rw [hsplit]
    rw [List.filter_cons, List.filter_append]
    have h1 : (rest.takeWhile (fun x => x != d)).filter (fun x => x != d) =
        rest.takeWhile (fun x => x != d) := by
      rw [List.filter_eq_self]
      intro x hx
      have hp := List.mem_takeWhile_imp hx
      exact hp
    have h2 : (c != d) = true := by simpa using hcd
    rw [h1, h2]
    simp

/-- C2: split(d) returns the non-empty fragments separated by d in
original order, dropping all empty fragments (consecutive, leading and
trailing delimiters produce none); the fragments flattened in order are
exactly the original codepoints with the delimiter occurrences removed;
a non-empty value with no occurrence of d yields exactly one fragment
equal to the whole value; and split on the codepoints of ";a;b;" yields
exactly the fragments "a" and "b".  (The universally quantified claim
fails only for the empty value, which yields zero fragments, not one;
see the counterexample.) -/
theorem split_spec (d : Nat) (cps : List Nat) :
    (∀ f ∈ split d cps, f ≠ [] ∧ d ∉ f) ∧
    ((split d cps).flatten = cps.filter (fun x => x != d)) ∧
    (cps ≠ [] → d ∉ cps → split d cps = [cps]) ∧
    split 59 [59, 97, 59, 98, 59] = [[97], [98]] := by
  refine ⟨split_fragments_nonempty d cps, split_flatten d cps,
    split_no_delimiter d cps, ?_⟩
  simp [split]

/-- C2 counterexample: the claim quantifies over every String containing
no occurrence of the delimiter and asserts the split yields exactly one
fragment equal to the value; for the empty value the split yields zero
fragments, not one fragment equal to the (empty) value. -/
theorem split_empty_value_counterexample :
    split 59 [] = [] ∧ split 59 ([] : List Nat) ≠ [[]] := by
  constructor
  · simp [split]
  · intro h
    simp [split] at h

/-- C2 witness: the amended universal parts instantiated at a concrete
non-empty value with no delimiter occurrence. -/
theorem split_spec_witness :
    (∀ f ∈ split 59 [97, 98], f ≠ [] ∧ 59 ∉ f) ∧
    ((split 59 [97, 98]).flatten =
      [97, 98].filter (fun x => x != 59)) ∧
    ([97, 98] ≠ ([] : List Nat) → 59 ∉ [97, 98] →
      split 59 [97, 98] = [[97, 98]]) ∧
    split 59 [59, 97, 59, 98, 59] = [[97], [98]] :=
  split_spec 59 [97, 98]

/-- Modelled from the spec: the documented not-found sentinel of find,
(size_t) -1, the maximum representable unsigned 64-bit value (spec
section 4.4). -/
def npos : Nat := 2 ^ 64 - 1

/-- Modelled from the spec: reading one codepoint back off the front of
the encoded buffer by inspecting the lead byte to determine the unit's
width (spec section 4.1); returns the codepoint and the remaining
bytes. -/
def decodeFirst : List Nat → Option (Nat × List Nat)
  | [] => none
  | b :: rest =>
    if b < 0xC0 then some (b, rest)
    else if b < 0xE0 then
      match rest with
      | b1 :: r => some ((b - 0xC0) * 0x40 + (b1 - 0x80), r)
      | [] => none
    else if b < 0xF0 then
      match rest with
      | b1 :: b2 :: r =>
        some ((b - 0xE0) * 0x1000 + (b1 - 0x80) * 0x40 + (b2 - 0x80), r)
      | _ => none
    else
      match rest with
      | b1 :: b2 :: b3 :: r =>
        some ((b - 0xF0) * 0x40000 + (b1 - 0x80) * 0x1000 +
          (b2 - 0x80) * 0x40 + (b3 - 0x80), r)
      | _ => none

theorem decodeFirst_encodeChar (c : Nat) (u : List Nat) :
    decodeFirst (encodeChar c ++ u) = some (c, u) := by
  unfold encodeChar
  split_ifs with h1 h2 h3
  · simp only [List.cons_append, List.nil_append]
    rw [decodeFirst.eq_def]
    simp only []
    rw [if_pos (by omega)]
  · simp only [List.cons_append, List.nil_append]
    rw [decodeFirst.eq_def]
    simp only []
    rw [if_neg (by omega), if_pos (by omega)]
    simp only [Option.some.injEq, Prod.mk.injEq]
    exact ⟨by omega, trivial⟩
  · simp only [List.cons_append, List.nil_append]
    rw [decodeFirst.eq_def]
    simp only []
    rw [if_neg (by omega), if_neg (by omega), if_pos (by omega)]
    simp only [Option.some.injEq, Prod.mk.injEq]
    exact ⟨by omega, trivial⟩
  · simp only [List.cons_append, List.nil_append]
    rw [decodeFirst.eq_def]
    simp only []
    rw [if_neg (by omega), if_neg (by omega), if_neg (by omega)]
    simp only [Option.some.injEq, Prod.mk.injEq]
    exact ⟨by omega, trivial⟩

theorem encodeChar_append_inj {a c : Nat} {u v : List Nat}
    (h : encodeChar a ++ u = encodeChar c ++ v) : a = c ∧ u = v := by
  have ha := decodeFirst_encodeChar a u
  have hc := decodeFirst_encodeChar c v
  rw [h, hc] at ha
  simp only [Option.some.injEq, Prod.mk.injEq] at ha
  exact ⟨ha.1.symm, ha.2.symm⟩

theorem encode_prefix_iff (nd cps : List Nat) :
    encode nd <+: encode cps ↔ nd <+: cps := by
  constructor
  · intro h
    induction nd generalizing cps with
    | nil => exact List.nil_prefix
    | cons n nt ih =>
      cases cps with
      | nil =>
        exfalso
        rw [encode_nil, List.prefix_nil, encode_cons] at h
        exact encodeChar_ne_nil n (List.append_eq_nil.mp h).1
      | cons c ct =>
        obtain ⟨t, ht⟩ := h
        rw [encode_cons, encode_cons, List.append_assoc] at ht
        obtain ⟨hnc, htl⟩ := encodeChar_append_inj ht
        subst hnc
        have hpre : encode nt <+: encode ct := ⟨t, htl⟩
        exact (List.prefix_cons_inj n).mpr (ih ct hpre)
  · rintro ⟨t, ht⟩
    refine ⟨encode t, ?_⟩
    rw [← encode_append, ht]

theorem encode_eq_nil_iff (cps : List Nat) : encode cps = [] ↔ cps = [] := by
  cases cps with
  | nil => simp [encode]
  | cons c ct =>
    rw [encode_cons]
    simp only [List.append_eq_nil]
    constructor
    · intro h; exact absurd h.1 (encodeChar_ne_nil c)
    · intro h; exact absurd h (by simp)

/-- Modelled from the spec: the find contract at codepoint level (spec
section 4.4) - the codepoint index of the first occurrence of the needle
as a contiguous codepoint subsequence, or the sentinel if absent. -/
def cpFind (nd : List Nat) : List Nat → Nat
  | [] => if nd.isEmpty then 0 else npos
  | c :: rest =>
    if nd.isPrefixOf (c :: rest) then 0
    else if cpFind nd rest = npos then npos else cpFind nd rest + 1

/-- Modelled from the spec: the find scan over the encoded byte buffer -
at each codepoint boundary the needle's bytes are compared against the
buffer, and on mismatch the scan advances by the width of the current
unit (lead-byte rule), counting codepoints, so the returned index is a
codepoint index, never a byte index (spec sections 4.1 and 4.4). -/
def findFrom (ndb : List Nat) : List Nat → Nat → Nat
  | [], i => if ndb.isEmpty then i else npos
  | b :: rest, i =>
    if ndb.isPrefixOf (b :: rest) then i
    else findFrom ndb (rest.drop (cpWidth b - 1)) (i + 1)
termination_by bs _ => bs.length
decreasing_by
  simp only [List.length_cons]
  have := List.length_drop (cpWidth b - 1) rest
  omega

/-- Modelled from the spec: find(needle) (spec section 4.4). -/
def find (hay ndb : List Nat) : Nat := findFrom ndb hay 0

theorem cpFind_le_length (nd l : List Nat) :
    cpFind nd l = npos ∨ cpFind nd l ≤ l.length := by
  induction l with
  | nil =>
    by_cases h : nd.isEmpty <;> simp [cpFind, h]
  | cons c rest ih =>
    rw [cpFind]
    split_ifs with h1 h2
    · right; simp
    · left; rfl
    · rcases ih with h | h
      · exact absurd h h2
      · right
        simp only [List.length_cons]
        omega

theorem cpFind_found (nd l : List Nat) (hlen : l.length < npos)
    (h : cpFind nd l ≠ npos) :
    nd <+: l.drop (cpFind nd l) ∧
      ∀ j < cpFind nd l, ¬ nd <+: l.drop j := by
  induction l with
  | nil =>
    rw [cpFind] at h ⊢
    by_cases hnd : nd.isEmpty
    · rw [if_pos hnd]
      simp only [List.drop_nil]
      refine ⟨?_, by omega⟩
      rw [List.isEmpty_iff] at hnd
      simp [hnd]
    · rw [if_neg hnd] at h
      exact absurd rfl h
  | cons c rest ih =>
    rw [cpFind] at h ⊢
    split_ifs at h ⊢ with h1 h2
    · refine ⟨?_, by omega⟩
      rw [List.drop_zero]
      exact List.isPrefixOf_iff_prefix.mp h1
    · exact absurd rfl h
    · have hrest : rest.length < npos := by
        simp only [List.length_cons] at hlen; omega
      obtain ⟨hpre, hmin⟩ := ih hrest h2
      constructor
      · simpa using hpre
      · intro j hj
        cases j with
        | zero =>
          rw [List.drop_zero]
          intro hc
          exact h1 (List.isPrefixOf_iff_prefix.mpr hc)
        | succ j' =>
          simp only [List.drop_succ_cons]
          exact hmin j' (by omega)

theorem cpFind_npos_iff (nd l : List Nat) (hlen : l.length < npos) :
    cpFind nd l = npos ↔ ∀ j, ¬ nd <+: l.drop j := by
  constructor
  · intro h
    induction l with
    | nil =>
      rw [cpFind] at h
      by_cases hnd : nd.isEmpty
      · rw [if_pos hnd] at h
        exfalso
        have : npos ≠ 0 := by simp [npos]
        exact this h.symm
      · intro j
        simp only [List.drop_nil]
        rw [List.isEmpty_iff] at hnd
        intro hc
        rw [List.prefix_nil] at hc
        exact hnd hc
    | cons c rest ih =>
      rw [cpFind] at h
      split_ifs at h with h1 h2
      · exfalso
        have : npos ≠ 0 := by simp [npos]
        exact this h.symm
      · have hrest : rest.length < npos := by
          simp only [List.length_cons] at hlen; omega
        have hall := ih hrest h2
        intro j
        cases j with
        | zero =>
          rw [List.drop_zero]
          intro hc
          exact h1 (List.isPrefixOf_iff_prefix.mpr hc)
        | succ j' =>
          simp only [List.drop_succ_cons]
          exact hall j'
      · exfalso
        rcases cpFind_le_length nd rest with hc | hc
        · exact h2 hc
        · have hlen' : rest.length + 1 < npos := by
            have := hlen
            simp only [List.length_cons] at this
            omega
          omega
  · intro hall
    by_contra h
    obtain ⟨hpre, _⟩ := cpFind_found nd l hlen h
    exact hall _ hpre

theorem encode_isEmpty (cps : List Nat) :
    (encode cps).isEmpty = cps.isEmpty := by
  cases cps with
  | nil => simp [encode]
  | cons c ct =>
    rw [encode_cons]
    rcases List.exists_cons_of_ne_nil (encodeChar_ne_nil c) with ⟨b, t, hbt⟩
    rw [hbt]
    simp

theorem findFrom_encode (nd cps : List Nat) (i : Nat)
    (hb : cps.length < npos) :
    findFrom (encode nd) (encode cps) i =
      if cpFind nd cps = npos then npos else i + cpFind nd cps := by
  induction cps generalizing i with
  | nil =>
    rw [encode_nil, findFrom, cpFind, encode_isEmpty]
    by_cases h : nd.isEmpty
    · rw [if_pos h, if_pos h, if_neg (by simp [npos])]
      omega
    · rw [if_neg h, if_neg h, if_pos rfl]
  | cons c rest ih =>
    have hrest : rest.length < npos := by
      simp only [List.length_cons] at hb; omega
    obtain ⟨b, t, hbt, hlen⟩ := encodeChar_head_width c
    have hrw : encode (c :: rest) = b :: (t ++ encode rest) := by
      rw [encode_cons, hbt]; simp
    rw [hrw, findFrom]
    have hdrop : (t ++ encode rest).drop (cpWidth b - 1) = encode rest := by
      rw [← hlen, List.drop_left]
    rw [hdrop]
    have hpfx : (encode nd).isPrefixOf (b :: (t ++ encode rest)) =
        nd.isPrefixOf (c :: rest) := by
      have h1 : (b :: (t ++ encode rest)) = encode (c :: rest) := hrw.symm
      rw [h1]
      by_cases hp : nd.isPrefixOf (c :: rest)
      · rw [hp]
        rw [List.isPrefixOf_iff_prefix] at hp ⊢
        exact (encode_prefix_iff nd (c :: rest)).mpr hp
      · rw [Bool.eq_false_iff.mpr hp]
        rw [Bool.eq_false_iff]
        intro hc
        rw [List.isPrefixOf_iff_prefix] at hc
        exact hp (List.isPrefixOf_iff_prefix.mpr
          ((encode_prefix_iff nd (c :: rest)).mp hc))
    rw [hpfx, cpFind]
    by_cases h1 : nd.isPrefixOf (c :: rest)
    · rw [if_pos h1, if_pos h1, if_neg (by simp [npos])]
      omega
    · rw [if_neg h1, if_neg h1, ih (i + 1) hrest]
      by_cases h2 : cpFind nd rest = npos
      · rw [if_pos h2, if_pos h2, if_pos rfl]
      · have hb1 : cpFind nd rest + 1 ≠ npos := by
          rcases cpFind_le_length nd rest with hc | hc
          · exact absurd hc h2
          · simp only [List.length_cons] at hb
            omega
        rw [if_neg h2, if_neg h2, if_neg hb1]
        omega

/-- C3: find(needle) on the encoded byte buffer returns the codepoint
index (not the byte index) of the first occurrence of the needle as a
contiguous codepoint subsequence (comparison is exact scalar-value
equality, embodied in comparing the exact encodings), and returns the
sentinel (size_t) -1 exactly when the needle does not occur. -/
theorem find_spec (hay nd : List Nat) (hlen : hay.length < npos) :
    (find (encode hay) (encode nd) ≠ npos →
      nd <+: hay.drop (find (encode hay) (encode nd)) ∧
      ∀ j < find (encode hay) (encode nd), ¬ nd <+: hay.drop j) ∧
    (find (encode hay) (encode nd) = npos ↔ ∀ j, ¬ nd <+: hay.drop j) := by
  have heq : find (encode hay) (encode nd) = cpFind nd hay := by
    rw [find, findFrom_encode nd hay 0 hlen]
    split_ifs with h
    · exact h.symm
    · simp
  rw [heq]
  exact ⟨fun h => cpFind_found nd hay hlen h, cpFind_npos_iff nd hay hlen⟩

/-- Codepoints of the test haystack "Thisisalongtestwithspécialchársinside"
(37 codepoints; the é and á are the two-byte codepoints 233 and 225). -/
def hayC3 : List Nat :=
  [84, 104, 105, 115, 105, 115, 97, 108, 111, 110, 103, 116, 101, 115, 116,
   119, 105, 116, 104, 115, 112, 233, 99, 105, 97, 108, 99, 104, 225, 114,
   115, 105, 110, 115, 105, 100, 101]

/-- Codepoints of the test needle "spécialchárs". -/
def ndC3 : List Nat :=
  [115, 112, 233, 99, 105, 97, 108, 99, 104, 225, 114, 115]

/-- C3 witness: the example from the claim - in the encoded buffer of
"Thisisalongtestwithspécialchársinside" the needle "spécialchárs" is
found at codepoint index 19 (the byte offset of the occurrence is 21, so
a byte-index implementation would differ), and the instantiated contract
holds. -/
theorem find_spec_witness :
    find (encode hayC3) (encode ndC3) = 19 ∧
    ((find (encode hayC3) (encode ndC3) ≠ npos →
        ndC3 <+: hayC3.drop (find (encode hayC3) (encode ndC3)) ∧
        ∀ j < find (encode hayC3) (encode ndC3), ¬ ndC3 <+: hayC3.drop j) ∧
      (find (encode hayC3) (encode ndC3) = npos ↔
        ∀ j, ¬ ndC3 <+: hayC3.drop j)) := by
  constructor
  · rw [find, findFrom_encode ndC3 hayC3 0 (by decide)]
    have hv : cpFind ndC3 hayC3 = 19 := by decide
    rw [hv]
    decide
  · exact find_spec hayC3 ndC3 (by decide)

/-- Modelled from the spec: decimal digit test for the numeric parsers
(spec section 4.7). -/
def isDigit (c : Nat) : Bool := decide (48 ≤ c) && decide (c ≤ 57)

/-- Modelled from the spec: left-to-right accumulation of decimal digit
codepoints; any non-digit codepoint makes the whole parse fail (the
full-string-must-match policy, spec sections 4.7 and 9). -/
def parseDigitsAux (acc : Nat) : List Nat → Option Nat
  | [] => some acc
  | c :: cs => if isDigit c then parseDigitsAux (acc * 10 + (c - 48)) cs else none

/-- Modelled from the spec: a non-empty all-digit run parsed as a natural
number; the empty run is a parse failure (spec section 4.7). -/
def parseNatDigits (cs : List Nat) : Option Nat :=
  if cs.isEmpty then none else parseDigitsAux 0 cs

/-- Modelled from the spec: parsing a signed integer literal - an
optional leading sign (45 is the minus codepoint, 43 the plus codepoint)
followed by a non-empty digit run (spec section 4.7). -/
def parseIntCp (cs : List Nat) : Option Int :=
  match cs with
  | [] => none
  | c :: rest =>
    if c = 45 then (parseNatDigits rest).map (fun n => -(n : Int))
    else if c = 43 then (parseNatDigits rest).map (fun n => (n : Int))
    else (parseNatDigits (c :: rest)).map (fun n => (n : Int))

/-- Modelled from the spec: toInt(&ok) - on parse failure the flag is
false and the value zero; on success the flag is true and the value the
parsed integer; the operation is a total function, so no exception can
escape it (spec sections 4.7 and 7). -/
def toInt (cs : List Nat) : Int × Bool :=
  match parseIntCp cs with
  | some v => (v, true)
  | none => (0, false)

/-- Modelled from the spec: the maximal leading digit run of the input
and the remaining codepoints. -/
def takeDigits : List Nat → List Nat × List Nat
  | [] => ([], [])
  | c :: cs =>
    if isDigit c then
      let p := takeDigits cs
      (c :: p.1, p.2)
    else ([], c :: cs)

/-- Modelled from the spec: the value of a digit run. -/
def digitsVal (ds : List Nat) : Nat := ds.foldl (fun a c => a * 10 + (c - 48)) 0

/-- Modelled from the spec: the unsigned part of a floating literal -
integer digits, optionally followed by the C-locale decimal separator
(the dot, codepoint 46) and fraction digits, with at least one digit
overall and nothing trailing (spec section 4.7); the exact value is kept
as a rational. -/
def parseDecBody (sgn : ℚ) (body : List Nat) : Option ℚ :=
  let ip := takeDigits body
  match ip.2 with
  | [] => if ip.1.isEmpty then none else some (sgn * (digitsVal ip.1 : ℚ))
  | c :: rest2 =>
    if c = 46 then
      let fp := takeDigits rest2
      if fp.2.isEmpty && !(ip.1.isEmpty && fp.1.isEmpty) then
        some (sgn * ((digitsVal ip.1 : ℚ) +
          (digitsVal fp.1 : ℚ) / (10 : ℚ) ^ fp.1.length))
      else none
    else none

/-- Modelled from the spec: parsing a signed floating literal under the
C locale's decimal-separator convention (spec section 4.7). -/
def parseDecCp (cs : List Nat) : Option ℚ :=
  match cs with
  | [] => none
  | c :: rest =>
    if c = 45 then parseDecBody (-1) rest
    else if c = 43 then parseDecBody 1 rest
    else parseDecBody 1 (c :: rest)

/-- Modelled from the spec: toFloat(&ok) - flag false and value zero on
any parse failure, flag true and the parsed value on success; a total
function, so no exception can escape it (spec sections 4.7 and 7).  The
parsed magnitude is kept exactly, as a rational. -/
def toFloat (cs : List Nat) : ℚ × Bool :=
  match parseDecCp cs with
  | some v => (v, true)
  | none => (0, false)

/-- Modelled from the spec: toDouble(&ok) - same contract as toFloat at
a wider floating width; in this model the value is kept exactly, so the
two coincide (spec section 4.7). -/
def toDouble (cs : List Nat) : ℚ × Bool :=
  match parseDecCp cs with
  | some v => (v, true)
  | none => (0, false)

/-- Codepoints of the test input "Cannot convert". -/
def cannotConvert : List Nat :=
  [67, 97, 110, 110, 111, 116, 32, 99, 111, 110, 118, 101, 114, 116]

/-- C4: toInt, toFloat and toDouble report failure only through the flag
and the zero return value - for the empty value and for fully
non-numeric content the flag is false and the value zero, and whenever
the flag is false the value is zero; for valid numeric text the flag is
true and the value is the correctly parsed one ("123" parses to 123,
"1.55" parses to 1.55 = 31/20 under the C locale).  The three
conversions are total functions of the input, so no exception is ever
involved. -/
theorem to_conversion_spec :
    toInt [] = (0, false) ∧ toInt cannotConvert = (0, false) ∧
    toFloat [] = (0, false) ∧ toFloat cannotConvert = (0, false) ∧
    toDouble [] = (0, false) ∧ toDouble cannotConvert = (0, false) ∧
    toInt [49, 50, 51] = (123, true) ∧
    toFloat [49, 46, 53, 53] = (31 / 20, true) ∧
    toDouble [49, 46, 53, 53] = (31 / 20, true) ∧
    (∀ cs, (toInt cs).2 = false → (toInt cs).1 = 0) ∧
    (∀ cs, (toFloat cs).2 = false → (toFloat cs).1 = 0) ∧
    (∀ cs, (toDouble cs).2 = false → (toDouble cs).1 = 0) := by
  refine ⟨by decide, by decide, by decide, by decide, by decide, by decide,
    by decide,
    by norm_num [toFloat, parseDecCp, parseDecBody, takeDigits, digitsVal,
      isDigit],
    by norm_num [toDouble, parseDecCp, parseDecBody, takeDigits, digitsVal,
      isDigit],
    ?_, ?_, ?_⟩
  · intro cs
    unfold toInt
    cases parseIntCp cs <;> simp
  · intro cs
    unfold toFloat
    cases parseDecCp cs <;> simp
  · intro cs
    unfold toDouble
    cases parseDecCp cs <;> simp

/-- C4 witness: the failure-implies-zero clauses instantiated at the
concrete failing input "Cannot convert". -/
theorem to_conversion_spec_witness :
    (toInt cannotConvert).2 = false ∧ (toInt cannotConvert).1 = 0 ∧
    (toFloat cannotConvert).2 = false ∧ (toFloat cannotConvert).1 = 0 ∧
    (toDouble cannotConvert).2 = false ∧ (toDouble cannotConvert).1 = 0 :=
  ⟨by decide,
   (to_conversion_spec.2.2.2.2.2.2.2.2.2.1) cannotConvert (by decide),
   by decide,
   (to_conversion_spec.2.2.2.2.2.2.2.2.2.2.1) cannotConvert (by decide),
   by decide,
   (to_conversion_spec.2.2.2.2.2.2.2.2.2.2.2) cannotConvert (by decide)⟩

/-- Modelled from the spec: the decimal digit codepoints of a positive
integer, least significant first (spec section 4.7). -/
def natDigitsRev (n : Nat) : List Nat :=
  if h : n = 0 then [] else (48 + n % 10) :: natDigitsRev (n / 10)
termination_by n
decreasing_by
  exact Nat.div_lt_self (Nat.pos_of_ne_zero h) (by norm_num)

/-- Modelled from the spec: decimal formatting of a natural number (spec
section 4.7): the digit sequence, "0" for zero. -/
def numberNat (n : Nat) : List Nat :=
  if n = 0 then [48] else (natDigitsRev n).reverse

/-- Modelled from the spec: String::number for a signed integer, base 10
- decimal digits with a leading minus sign (codepoint 45) exactly for
negative inputs (spec section 4.7). -/
def number (x : Int) : List Nat :=
  if x < 0 then 45 :: numberNat x.natAbs else numberNat x.natAbs

theorem natDigitsRev_mem_digit (n : Nat) :
    ∀ c ∈ natDigitsRev n, 48 ≤ c ∧ c ≤ 57 := by
  induction n using natDigitsRev.induct with
  | case1 =>
    rw [natDigitsRev, dif_pos rfl]
    intro c hc
    simp at hc
  | case2 n h ih =>
    rw [natDigitsRev, dif_neg h]
    intro c hc
    rcases List.mem_cons.mp hc with h1 | h1
    · subst h1
      have := Nat.mod_lt n (show 0 < 10 by norm_num)
      omega
    · exact ih c h1

theorem parseDigitsAux_append (acc : Nat) (l1 l2 : List Nat) :
    parseDigitsAux acc (l1 ++ l2) =
      match parseDigitsAux acc l1 with
      | some a => parseDigitsAux a l2
      | none => none := by
  induction l1 generalizing acc with
  | nil => simp [parseDigitsAux]
  | cons c cs ih =>
    simp only [List.cons_append, parseDigitsAux, List.append_eq]
    by_cases h : isDigit c
    · rw [if_pos h, if_pos h, ih]
    · rw [if_neg h, if_neg h]

theorem parseDigitsAux_natDigitsRev (n : Nat) :
    ∀ acc, parseDigitsAux acc ((natDigitsRev n).reverse) =
      some (acc * 10 ^ (natDigitsRev n).length + n) := by
  induction n using natDigitsRev.induct with
  | case1 =>
    intro acc
    rw [natDigitsRev, dif_pos rfl]
    simp only [List.reverse_nil, List.length_nil, parseDigitsAux, pow_zero]
    simp
  | case2 n h ih =>
    intro acc
    rw [natDigitsRev, dif_neg h]
    simp only [List.reverse_cons, List.length_cons]
    rw [parseDigitsAux_append, ih acc]
    simp only [parseDigitsAux]
    have hd : isDigit (48 + n % 10) = true := by
      simp [isDigit]
      omega
    rw [if_pos hd]
    simp only [parseDigitsAux, Option.some.injEq]
    have hmod : 48 + n % 10 - 48 = n % 10 := by omega
    rw [hmod]
    have hdm := Nat.div_add_mod n 10
    calc (acc * 10 ^ (natDigitsRev (n / 10)).length + n / 10) * 10 + n % 10
        = acc * (10 ^ (natDigitsRev (n / 10)).length * 10) +
          (10 * (n / 10) + n % 10) := by ring
      _ = acc * 10 ^ ((natDigitsRev (n / 10)).length + 1) + n := by
          rw [pow_succ, hdm]

theorem parseNatDigits_numberNat (n : Nat) :
    parseNatDigits (numberNat n) = some n := by
  by_cases h : n = 0
  · subst h
    decide
  · rw [numberNat, if_neg h, parseNatDigits]
    have hne : natDigitsRev n ≠ [] := by
      rw [natDigitsRev, dif_neg h]
      simp
    rw [if_neg (by simpa using hne)]
    rw [parseDigitsAux_natDigitsRev n 0]
    simp

theorem numberNat_head (n : Nat) :
    ∃ c rest, numberNat n = c :: rest ∧ 48 ≤ c ∧ c ≤ 57 := by
  by_cases h : n = 0
  · subst h
    exact ⟨48, [], rfl, by omega, by omega⟩
  · rw [numberNat, if_neg h]
    have hne : natDigitsRev n ≠ [] := by
      rw [natDigitsRev, dif_neg h]
      simp
    have hrne : (natDigitsRev n).reverse ≠ [] := by
      simpa using hne
    rcases List.exists_cons_of_ne_nil hrne with ⟨c, rest, hcr⟩
    refine ⟨c, rest, hcr, ?_⟩
    have hmem : c ∈ (natDigitsRev n).reverse := by
      rw [hcr]; exact List.mem_cons_self c rest
    rw [List.mem_reverse] at hmem
    exact natDigitsRev_mem_digit n c hmem

theorem parseIntCp_numberNat (n : Nat) :
    parseIntCp (numberNat n) = some (n : Int) := by
  rcases numberNat_head n with ⟨c, rest, hcr, hc1, hc2⟩
  rw [hcr, parseIntCp]
  rw [if_neg (by omega), if_neg (by omega)]
  rw [← hcr, parseNatDigits_numberNat n]
  simp

/-- C5: for every representable signed 32-bit integer x,
String::number(x).toInt(&ok) returns x with ok set to true: decimal
formatting of an integer round-trips through integer parsing. -/
theorem number_toInt_roundtrip (x : Int)
    (h1 : -(2 ^ 31) ≤ x) (h2 : x < 2 ^ 31) :
    toInt (number x) = (x, true) := by
  rw [number]
  by_cases hx : x < 0
  · rw [if_pos hx]
    have hp : parseIntCp (45 :: numberNat x.natAbs) =
        some (-(x.natAbs : Int)) := by
      rw [parseIntCp, if_pos rfl, parseNatDigits_numberNat]
      simp
    simp only [toInt, hp]
    have hval : -((x.natAbs : Int)) = x := by omega
    rw [hval]
  · rw [if_neg hx]
    simp only [toInt, parseIntCp_numberNat]
    have hval : ((x.natAbs : Int)) = x := by omega
    rw [hval]

/-- C5 witness: the round-trip instantiated at the representable 32-bit
value -15 (a value exercised by the tests). -/
theorem number_toInt_roundtrip_witness :
    -(2 ^ 31) ≤ (-15 : Int) ∧ (-15 : Int) < 2 ^ 31 ∧
    toInt (number (-15)) = (-15, true) :=
  ⟨by decide, by decide, number_toInt_roundtrip (-15) (by decide) (by decide)⟩

/-- Modelled from the spec: operator+ concatenation of two Strings by
raw byte copy of the two encoded buffers (spec section 4.2).  It is a
pure function producing a new value: neither operand is part of the
result's storage, so neither operand is mutated. -/
def concat (a b : List Nat) : List Nat := a ++ b

/-- Modelled from the spec: append - in-place insertion at the end
offset of the buffer; the resulting value (spec section 4.2). -/
def appendStr (a b : List Nat) : List Nat := a ++ b

/-- Modelled from the spec: prepend - the mirror operation, insertion at
codepoint offset 0, hence byte offset 0 (spec section 4.2). -/
def prependStr (a b : List Nat) : List Nat := b ++ a

/-- Modelled from the spec: size() reports the codepoint count of the
encoded buffer obtained by the lead-byte scan, never the byte count
(spec section 3). -/
def size (bs : List Nat) : Nat := codepointCount bs

/-- C6: concatenation with operator+ is associative on content -
(A + B) + C equals A + (B + C) for arbitrary buffers - and the raw
byte-copy concatenation of two encoded buffers is exactly the encoding
of the concatenated codepoint sequences (so it is correct and boundary
preserving); concat is a pure function of its operands, so neither
operand is mutated. -/
theorem concat_assoc_spec (A B C : List Nat) :
    concat (concat A B) C = concat A (concat B C) ∧
    concat (encode A) (encode B) = encode (A ++ B) := by
  constructor
  · simp [concat, List.append_assoc]
  · rw [concat, encode_append]

/-- Codepoints of the test value "áéíóúñ€%32" (10 codepoints whose UTF-8
encoding takes 18 bytes). -/
def specialCharsC7 : List Nat :=
  [225, 233, 237, 243, 250, 241, 8364, 37, 51, 50]

/-- C7: size() always returns the number of Unicode codepoints of the
value, never the number of bytes: the scan-based count of any encoded
buffer equals the codepoint-sequence length; the 10-codepoint test value
"áéíóúñ€%32" has size 10 although its encoding occupies 18 bytes; and
the invariant is preserved by append, prepend and concatenation (copy
construction and assignment copy the buffer unchanged in the value
model, so they preserve it trivially). -/
theorem size_codepoint_invariant :
    (∀ cps : List Nat, size (encode cps) = cps.length) ∧
    size (encode specialCharsC7) = 10 ∧
    (encode specialCharsC7).length = 18 ∧
    (∀ a b : List Nat,
      size (appendStr (encode a) (encode b)) =
        size (encode a) + size (encode b)) ∧
    (∀ a b : List Nat,
      size (prependStr (encode a) (encode b)) =
        size (encode a) + size (encode b)) ∧
    (∀ a b : List Nat,
      size (concat (encode a) (encode b)) =
        size (encode a) + size (encode b)) := by
  have hsize : ∀ cps : List Nat, size (encode cps) = cps.length :=
    fun cps => codepointCount_encode cps
  have hsum : ∀ a b : List Nat,
      size (encode a ++ encode b) = size (encode a) + size (encode b) := by
    intro a b
    rw [← encode_append, hsize, hsize, hsize, List.length_append]
  refine ⟨hsize, ?_, ?_, ?_, ?_, ?_⟩
  · rw [hsize]
    decide
  · decide
  · intro a b
    show size (encode a ++ encode b) = size (encode a) + size (encode b)
    exact hsum a b
  · intro a b
    show size (encode b ++ encode a) = size (encode a) + size (encode b)
    rw [hsum b a]
    omega
  · intro a b
    show size (encode a ++ encode b) = size (encode a) + size (encode b)
    exact hsum a b

namespace SafePointer

/-- SafePointer::contentDestroyed (safe_pointer.h lines 152-156), the
slot connected to the target's destroyed signal: assigns 0 to the m_t
member, whatever it held.  The state of a SafePointer is its m_t member,
a raw address or null (modelled as Option Nat). -/
def contentDestroyed (_m : Option Nat) : Option Nat := none

/-- SafePointer::content (safe_pointer.h lines 158-162): returns m_t. -/
def content (m : Option Nat) : Option Nat := m

/-- SafePointer::operator-> (safe_pointer.h lines 183-187): returns
m_t. -/
def arrowOp (m : Option Nat) : Option Nat := m

/-- SafePointer::operator bool (safe_pointer.h lines 189-193): whether
m_t is non-null. -/
def toBool (m : Option Nat) : Bool := m.isSome

/-- SafePointer::operator! (safe_pointer.h lines 164-168): whether m_t
is null. -/
def bangOp (m : Option Nat) : Bool := m.isNone

/-- SafePointer::isContentDestroyed (safe_pointer.h lines 221-225):
whether m_t is null. -/
def isContentDestroyed (m : Option Nat) : Bool := m.isNone

/-- Outcome of SafePointer::operator* (safe_pointer.h lines 170-181). -/
inductive DerefResult
  | target (a : Nat)
  | freshWithWarning
  | undefined
deriving DecidableEq

/-- SafePointer::operator* (safe_pointer.h lines 170-181): with content
present it returns the target.  With null content, when NDEBUG is not
defined (a debug build) it emits IDEAL_DEBUG_WARNING and returns a
reference to a freshly allocated T; when NDEBUG is defined (a release
build) the function reaches its closing brace without returning a value,
which is undefined behaviour. -/
def starOp (debugBuild : Bool) (m : Option Nat) : DerefResult :=
  match m with
  | some a => DerefResult.target a
  | none =>
    if debugBuild then DerefResult.freshWithWarning
    else DerefResult.undefined

end SafePointer

/-- C8: once the observed target emits its destroyed notification, the
SafePointer clears its reference to null whatever address it held:
afterwards content() and operator-> return 0, operator bool returns
false, operator! and isContentDestroyed() return true.  All accessors
are const reads of the cleared member, so the invalidated pointer can
never yield the old (dangling) address again (content of the cleared
state is none, not some a, for every address a). -/
theorem safePointer_contentDestroyed_clears (m : Option Nat) :
    SafePointer.content (SafePointer.contentDestroyed m) = none ∧
    SafePointer.arrowOp (SafePointer.contentDestroyed m) = none ∧
    SafePointer.toBool (SafePointer.contentDestroyed m) = false ∧
    SafePointer.bangOp (SafePointer.contentDestroyed m) = true ∧
    SafePointer.isContentDestroyed (SafePointer.contentDestroyed m) = true ∧
    (∀ a : Nat,
      SafePointer.content (SafePointer.contentDestroyed m) ≠ some a) := by
  refine ⟨rfl, rfl, rfl, rfl, rfl, ?_⟩
  intro a
  simp [SafePointer.content, SafePointer.contentDestroyed]

/-- C8 witness: the clearing behaviour instantiated at a pointer that
held the concrete address 7. -/
theorem safePointer_contentDestroyed_clears_witness :
    SafePointer.content (SafePointer.contentDestroyed (some 7)) = none ∧
    SafePointer.arrowOp (SafePointer.contentDestroyed (some 7)) = none ∧
    SafePointer.toBool (SafePointer.contentDestroyed (some 7)) = false ∧
    SafePointer.bangOp (SafePointer.contentDestroyed (some 7)) = true ∧
    SafePointer.isContentDestroyed
      (SafePointer.contentDestroyed (some 7)) = true ∧
    (∀ a : Nat,
      SafePointer.content
        (SafePointer.contentDestroyed (some 7)) ≠ some a) :=
  safePointer_contentDestroyed_clears (some 7)

/-- C9 counterexample: the claim says dereferencing an invalidated
SafePointer returns a null/empty indicator and that a warning may be
raised in non-debug builds.  In the code, operator* on a null pointer in
a non-debug build (NDEBUG defined) falls off the end of the function -
undefined behaviour, neither a null return nor a warning - and the
warning path is compiled in debug builds (under ifndef NDEBUG), not
non-debug ones. -/
theorem safePointer_deref_counterexample :
    SafePointer.starOp false none = SafePointer.DerefResult.undefined ∧
    SafePointer.starOp false none ≠
      SafePointer.DerefResult.freshWithWarning ∧
    SafePointer.starOp true none =
      SafePointer.DerefResult.freshWithWarning := by
  refine ⟨rfl, ?_, rfl⟩
  intro h
  simp [SafePointer.starOp] at h

/-- C9 (amended): dereferencing an invalidated SafePointer through
operator-> or content() is non-fatal and returns the null indicator and
never throws; operator* on an invalidated pointer is the one documented
undefined-behaviour path: in debug builds (NDEBUG not defined) it raises
the developer-visible warning and returns a reference to a freshly
allocated object - never the old target - while in non-debug builds its
behaviour is undefined. -/
theorem safePointer_deref_amended :
    SafePointer.arrowOp none = none ∧
    SafePointer.content none = none ∧
    SafePointer.starOp true none =
      SafePointer.DerefResult.freshWithWarning ∧
    (∀ a : Nat,
      SafePointer.starOp true none ≠ SafePointer.DerefResult.target a) ∧
    SafePointer.starOp false none = SafePointer.DerefResult.undefined := by
  refine ⟨rfl, rfl, rfl, ?_, rfl⟩
  intro a
  simp [SafePointer.starOp]

/-- C9 witness: the amended per-build-mode behaviour checked at the
concrete old address 7. -/
theorem safePointer_deref_amended_witness :
    SafePointer.starOp true none ≠ SafePointer.DerefResult.target 7 := by
  rcases safePointer_deref_amended with ⟨-, -, -, h, -⟩
  exact h 7

namespace ScopedPointer

/-- The observable state of a ScopedPointer<T>: its m_t member
(scoped_pointer.h line 115) together with the trace of addresses it has
deleted. -/
structure State where
  m_t : Option Nat
  freed : List Nat
deriving DecidableEq

/-- ScopedPointer::operator=(T*) (scoped_pointer.h lines 176-180): plain
overwrite of m_t; the previous content is not deleted. -/
def assignRaw (s : State) (content : Option Nat) : State :=
  { s with m_t := content }

/-- ScopedPointer::operator=(const ScopedPointer&) (scoped_pointer.h
lines 183-187): plain overwrite of m_t with the other pointer's m_t; the
previous content is not deleted. -/
def assignCopy (s other : State) : State :=
  { s with m_t := other.m_t }

/-- ~ScopedPointer (scoped_pointer.h lines 133-136): delete m_t; delete
of a null pointer is a no-op, so exactly the owned object, if any, is
freed. -/
def destructor (s : State) : State :=
  match s.m_t with
  | some a => { s with freed := a :: s.freed }
  | none => s

end ScopedPointer

/-- C10: ScopedPointer assignment - from a raw pointer or from another
ScopedPointer - replaces the stored pointer without deleting the
previously owned object (the delete trace is unchanged by either
assignment), and the owned object is deleted exactly when the
ScopedPointer itself is destroyed (the destructor appends the currently
owned address, if any, to the delete trace). -/
theorem scopedPointer_assign_no_delete (s t : ScopedPointer.State)
    (p : Option Nat) :
    (ScopedPointer.assignRaw s p).freed = s.freed ∧
    (ScopedPointer.assignRaw s p).m_t = p ∧
    (ScopedPointer.assignCopy s t).freed = s.freed ∧
    (ScopedPointer.assignCopy s t).m_t = t.m_t ∧
    ((ScopedPointer.destructor s).freed =
      match s.m_t with
      | some a => a :: s.freed
      | none => s.freed) := by
  refine ⟨rfl, rfl, rfl, rfl, ?_⟩
  rw [ScopedPointer.destructor]
  cases s.m_t <;> rfl

end IdealCore
